import Mathlib

/-!
Verification development for the Excel-to-XML converter service
(`backend/src/services/converter.js`) and its AES file-encryption utility
(`utils/encryption.js`).

The JavaScript code is shallowly embedded:
* strings are Lean `String` / `List Char`; the JavaScript whitespace class
  (used by `String.trim` and the regexp `\s`) is modelled by `isJsSpace`;
* a worksheet is a grid of optional cells carrying the formatted display
  text (`w`) and the stringified raw value (`v`), exactly the two fields
  the extractor reads;
* a JavaScript object used as an ordered record is an association list;
  property assignment `obj[k] = v` is `recInsert` (overwrite in place,
  append if new — first-insertion position is kept, as for JS string keys);
* the filesystem is a map from path to file content, `writeFileSync` and
  `unlinkSync` are pointwise updates;
* external collaborators (the XLSX parser, the AES block cipher inside
  node's `crypto`) are parameters, constrained only by the hypotheses each
  theorem states.
-/

/-! ## JavaScript character classes -/

/-- Characters matched by JavaScript `\s` (also the set removed by
`String.prototype.trim`): tab, LF, VT, FF, CR, space, NBSP, and the
Unicode space separators, line/paragraph separators and BOM. -/
def isJsSpace (c : Char) : Bool :=
  decide (c.toNat = 0x09) || decide (c.toNat = 0x0a) || decide (c.toNat = 0x0b) ||
  decide (c.toNat = 0x0c) || decide (c.toNat = 0x0d) || decide (c.toNat = 0x20) ||
  decide (c.toNat = 0xa0) || decide (c.toNat = 0x1680) ||
  (decide (0x2000 ≤ c.toNat) && decide (c.toNat ≤ 0x200a)) ||
  decide (c.toNat = 0x2028) || decide (c.toNat = 0x2029) || decide (c.toNat = 0x202f) ||
  decide (c.toNat = 0x205f) || decide (c.toNat = 0x3000) || decide (c.toNat = 0xfeff)

/-- Characters kept by the sanitizer's removal step,
regexp `[^a-zA-Z0-9_.-]` complement: ASCII letters, digits, `_`, `.`, `-`. -/
def allowedChar (c : Char) : Bool :=
  (decide (0x61 ≤ c.toNat) && decide (c.toNat ≤ 0x7a)) ||
  (decide (0x41 ≤ c.toNat) && decide (c.toNat ≤ 0x5a)) ||
  (decide (0x30 ≤ c.toNat) && decide (c.toNat ≤ 0x39)) ||
  decide (c.toNat = 0x5f) || decide (c.toNat = 0x2e) || decide (c.toNat = 0x2d)

/-- Characters accepted by the leading-character test `/^[a-zA-Z_]/`. -/
def startOk (c : Char) : Bool :=
  (decide (0x61 ≤ c.toNat) && decide (c.toNat ≤ 0x7a)) ||
  (decide (0x41 ≤ c.toNat) && decide (c.toNat ≤ 0x5a)) ||
  decide (c.toNat = 0x5f)

/-- Strip leading and trailing JavaScript whitespace (`String.prototype.trim`). -/
def trimChars (l : List Char) : List Char :=
  ((l.dropWhile isJsSpace).reverse.dropWhile isJsSpace).reverse

/-- Model of `String.prototype.trim`. -/
def jsTrim (s : String) : String :=
  String.mk (trimChars s.data)

/-- Worker for `replace(/\s+/g, "_")`: the flag records whether the previous
character was whitespace (a maximal whitespace run yields one underscore). -/
def collapseWsAux : Bool → List Char → List Char
  | _, [] => []
  | prevWs, c :: rest =>
    if isJsSpace c then
      if prevWs then collapseWsAux true rest
      else '_' :: collapseWsAux true rest
    else c :: collapseWsAux false rest

/-- Model of `replace(/\s+/g, "_")`: each maximal run of whitespace becomes
a single underscore. -/
def collapseWs (l : List Char) : List Char :=
  collapseWsAux false l

/-- Step 4 of the sanitizer: `if (!/^[a-zA-Z_]/.test(tag)) tag = "_" + tag`.
The empty string fails the test, so it also receives the underscore. -/
def prependIfNeeded : List Char → List Char
  | [] => ['_']
  | c :: cs => if startOk c then c :: cs else '_' :: c :: cs

/-- Model of `ExcelToXMLConverter._sanitizeXmlTag` (converter.js:34-59):
empty input yields `EMPTY_TAG`; otherwise trim, collapse whitespace runs to
underscores, remove disallowed characters, prepend `_` if the result does not
start with a letter or underscore, and finally fall back to `EMPTY_TAG` if the
result is empty (that last test comes after the underscore was prepended). -/
def sanitizeXmlTag (tag : String) : String :=
  if tag = "" then "EMPTY_TAG"
  else
    let t := (collapseWs (trimChars tag.data)).filter allowedChar
    let t2 := prependIfNeeded t
    if t2 = [] then "EMPTY_TAG" else String.mk t2

/-! ## Worksheet model and extraction (`_processExcelData`, converter.js:89-133) -/

/-- One spreadsheet cell as the extractor sees it: `w` is the formatted
display text (absent when the library computed none), `v` is the raw value
already taken through JavaScript `String(...)` (absent when undefined). -/
structure Cell where
  w : Option String
  v : Option String
deriving DecidableEq

/-- Decoded `!ref` range of a worksheet: start/end row and column indices. -/
structure GridRange where
  sr : Nat
  sc : Nat
  er : Nat
  ec : Nat
deriving DecidableEq

/-- A worksheet: its decoded range and the cell found at each address
(`none` when the address is not present in the sheet object). -/
structure Worksheet where
  rng : GridRange
  cell : Nat → Nat → Option Cell

/-- Model of the inner `getDisplay` (converter.js:93-100): use the formatted
text `cell.w` when defined and non-empty, else `String(cell.v)` when `cell.v`
is defined, else the empty string; a missing cell gives the empty string. -/
def getDisplay : Option Cell → String
  | none => ""
  | some cell =>
    match cell.w with
    | some w => if w = "" then cell.v.getD "" else w
    | none => cell.v.getD ""

/-- Column indices `range.s.c .. range.e.c` visited by the extraction loops. -/
def colIdxs (ws : Worksheet) : List Nat :=
  List.range' ws.rng.sc (ws.rng.ec + 1 - ws.rng.sc)

/-- Data row indices `range.s.r + 1 .. range.e.r`. -/
def rowIdxs (ws : Worksheet) : List Nat :=
  List.range' (ws.rng.sr + 1) (ws.rng.er - ws.rng.sr)

/-- The column-header map (converter.js:102-112): the trimmed display text of
the header-row cell, or the placeholder `COL_<n>` (1-based) when the cell is
missing or its trimmed text is empty. -/
def headerMap (ws : Worksheet) (c : Nat) : String :=
  match ws.cell ws.rng.sr c with
  | none => "COL_" ++ toString (c + 1)
  | some cell =>
    let headerName := jsTrim (getDisplay (some cell))
    if headerName = "" then "COL_" ++ toString (c + 1) else headerName

/-- Display text stored for the cell at `(r, c)`; a missing cell contributes
the empty string, exactly as the `else` branch of the row loop does. -/
def cellText (ws : Worksheet) (r c : Nat) : String :=
  getDisplay (ws.cell r c)

/-- JavaScript property assignment `obj[k] = v` on an object viewed as an
ordered association list: overwrite in place if the key exists (keeping its
position), otherwise append the new pair. -/
def recInsert : List (String × String) → String → String → List (String × String)
  | [], k, v => [(k, v)]
  | p :: ps, k, v => if p.1 = k then (k, v) :: ps else p :: recInsert ps k v

/-- The `(column name, cell text)` pairs assigned into `rowRecord` for row
`r`, in column order. -/
def rowPairs (ws : Worksheet) (r : Nat) : List (String × String) :=
  (colIdxs ws).map (fun c => (headerMap ws c, cellText ws r c))

/-- Build `rowRecord` by performing the assignments in column order. -/
def buildRecord (ps : List (String × String)) : List (String × String) :=
  ps.foldl (fun rec p => recInsert rec p.1 p.2) []

/-- The `hasData` flag of the row loop: some cell of the row has non-empty
display text (only existing cells can set it, and a missing cell's text is
empty). -/
def rowHasData (ws : Worksheet) (r : Nat) : Bool :=
  (colIdxs ws).any (fun c => cellText ws r c ≠ "")

/-- Model of `_processExcelData` (converter.js:89-133): one record per
non-header row that has data, in row order. -/
def processExcelData (ws : Worksheet) : List (List (String × String)) :=
  ((rowIdxs ws).filter (fun r => rowHasData ws r)).map (fun r => buildRecord (rowPairs ws r))

/-! ## XML assembly (`convert` lines 205-222, `_createHeader`, `_createDataSection`) -/

/-- An XML tree node: an element with a name and ordered children, or text. -/
inductive XmlNode where
  | elem (name : String) (children : List XmlNode)
  | text (s : String)

/-- Element name of a node (text nodes have none; the empty string is not a
valid element name, so it cannot collide). -/
def XmlNode.nameOf : XmlNode → String
  | .elem n _ => n
  | .text _ => ""

/-- Children of a node. -/
def XmlNode.childrenOf : XmlNode → List XmlNode
  | .elem _ cs => cs
  | .text _ => []

/-- Tag name used for a caller-supplied header field
(`key.replace(/\s+/g, "_")`, converter.js:74): whitespace runs become
underscores, with no trimming and no further sanitization. -/
def headerTag (key : String) : String :=
  String.mk (collapseWs key.data)

/-- Model of `_createHeader` (converter.js:64-84) as the list of root
children it contributes: one `HEADER` element when the field object is
non-empty, nothing otherwise.  A field value of `none` models JavaScript
`null`/`undefined` and becomes empty text; any other value arrives already
stringified. -/
def headerPart (headerFields : List (String × Option String)) : List XmlNode :=
  if headerFields.length = 0 then []
  else [XmlNode.elem "HEADER"
    (headerFields.map (fun kv => XmlNode.elem (headerTag kv.1) [XmlNode.text (kv.2.getD "")]))]

/-- One `CALLREPORT_DATA` row element (`_createDataSection`,
converter.js:138-147): one child per record field, in record order, named by
the sanitized field name and containing the field text. -/
def rowElem (rec : List (String × String)) : XmlNode :=
  XmlNode.elem "CALLREPORT_DATA"
    (rec.map (fun kv => XmlNode.elem (sanitizeXmlTag kv.1) [XmlNode.text kv.2]))

/-- The assembled document (`convert` lines 205-222): a `CALLREPORT` root
holding the optional `HEADER` section followed by the `BODY` section with one
row element per record.  The code guards `_createHeader` behind
`headerFields && Object.keys(headerFields).length > 0`, and `_createHeader`
repeats the same test; a `null` field object is the empty list here. -/
def buildXml (headerFields : List (String × Option String))
    (records : List (List (String × String))) : XmlNode :=
  XmlNode.elem "CALLREPORT"
    (headerPart headerFields ++ [XmlNode.elem "BODY" (records.map rowElem)])

mutual

/-- Serialization of one node.  The exact pretty-printed layout produced by
`xmlbuilder2` is not a compatibility contract; this rendering fixes element
nesting, names and text, which are. -/
def renderNode : XmlNode → String
  | .text s => s
  | .elem n cs => "<" ++ n ++ ">" ++ renderList cs ++ "</" ++ n ++ ">"

/-- Serialization of a list of sibling nodes. -/
def renderList : List XmlNode → String
  | [] => ""
  | x :: xs => renderNode x ++ renderList xs

end

/-! ## Filesystem and the conversion orchestrator (`convert`, converter.js:152-273) -/

/-- File content: raw bytes (a node `Buffer`) or text written with a `utf-8`
encoding argument. -/
inductive FileData where
  | bytes (bs : List Nat)
  | text (s : String)
deriving DecidableEq

/-- A filesystem: each path maps to the content of the file there, if any. -/
def FS : Type := String → Option FileData

/-- Model of `fs.writeFileSync`. -/
def fsWrite (fs : FS) (p : String) (d : FileData) : FS :=
  fun q => if q = p then some d else fs q

/-- Model of `fs.unlinkSync`. -/
def fsDelete (fs : FS) (p : String) : FS :=
  fun q => if q = p then none else fs q

/-- Values appearing in the summary object returned by `convert`. -/
inductive JsVal where
  | bool (b : Bool)
  | num (n : Nat)
  | str (s : String)
deriving DecidableEq

/-- The object literal `convert` returns on success (converter.js:258-262):
`{ success: true, rowsProcessed, conversionTime }`, as its ordered entries. -/
def mkSummary (rows elapsedMs : Nat) : List (String × JsVal) :=
  [("success", JsVal.bool true), ("rowsProcessed", JsVal.num rows),
   ("conversionTime", JsVal.num elapsedMs)]

/-- The error kinds `convert` can throw, in the spec's taxonomy.  The code
raises plain `Error`s with distinguishing messages; the kind is what matters
to the claims. -/
inductive ConvErr where
  | fileNotFound
  | workbookRead
  | sheetNotFound
  | emptyData
  | cipherError
deriving DecidableEq

/-- First-occurrence replacement, the semantics of JavaScript
`String.prototype.replace` with a string pattern.  `pat` is the non-empty
literal `".xml"` at the call site, so the empty-pattern corner of `replace`
is irrelevant. -/
def listReplaceFirst (s pat rep : List Char) : List Char :=
  match s with
  | [] => []
  | c :: rest =>
    if pat.isPrefixOf (c :: rest) then rep ++ (c :: rest).drop pat.length
    else c :: listReplaceFirst rest pat rep

/-- The encrypted output path `outputFile.replace(".xml", ".xml.enc")`
(converter.js:233). -/
def encPathOf (outputFile : String) : String :=
  String.mk (listReplaceFirst outputFile.data ".xml".data ".xml.enc".data)

/-- A workbook as `convert` uses it: the ordered sheet names and the sheet
stored under each name. -/
structure Workbook where
  sheetNames : List String
  sheets : String → Worksheet

/-- Sheet selection `sheetName || workbook.SheetNames[0]` (converter.js:185):
a `null` or empty-string sheet name falls back to the first sheet name;
`none` means there is no candidate at all (an empty workbook). -/
def selectSheet (sheetName : Option String) (names : List String) : Option String :=
  match sheetName with
  | some s => if s = "" then names.head? else some s
  | none => names.head?

/-- Tail of `convert` after extraction succeeded (converter.js:205-262):
serialize the document, write it to `outputFile`, then, when encryption was
requested, encrypt the file to `outputFile.replace(".xml", ".xml.enc")` and
unlink the plaintext.  `encStep` is `encryption.encryptFile` reduced to its
content transformation: applied to the content read back from `outputFile`,
it returns the content of the encrypted file, or `none` when the cipher
throws; in that case the error propagates before any unlink happens. -/
def afterExtract (fs : FS) (outputFile : String)
    (headerFields : List (String × Option String))
    (records : List (List (String × String)))
    (encryptOutput : Bool) (encStep : FileData → Option FileData)
    (elapsedMs : Nat) : FS × Except ConvErr (List (String × JsVal)) :=
  let xml := renderNode (buildXml headerFields records)
  let fs1 := fsWrite fs outputFile (FileData.text xml)
  if encryptOutput then
    match encStep (FileData.text xml) with
    | none => (fs1, Except.error ConvErr.cipherError)
    | some encData =>
      let fs2 := fsWrite fs1 (encPathOf outputFile) encData
      let fs3 := fsDelete fs2 outputFile
      (fs3, Except.ok (mkSummary records.length elapsedMs))
  else (fs1, Except.ok (mkSummary records.length elapsedMs))

/-- Model of `ExcelToXMLConverter.convert` (converter.js:152-273).
`parse` is the external `XLSX.readFile` applied to the input file's content
(`none` when the library throws).  The audit-log calls have no effect on the
filesystem or the result and are omitted.  `elapsedMs` stands for the
measured wall-clock duration `Date.now() - startTime`. -/
def convert (fs : FS) (inputFile outputFile : String)
    (parse : FileData → Option Workbook)
    (headerFields : List (String × Option String))
    (sheetName : Option String) (encryptOutput : Bool)
    (encStep : FileData → Option FileData)
    (elapsedMs : Nat) : FS × Except ConvErr (List (String × JsVal)) :=
  match fs inputFile with
  | none => (fs, Except.error ConvErr.fileNotFound)
  | some inData =>
    match parse inData with
    | none => (fs, Except.error ConvErr.workbookRead)
    | some wb =>
      match selectSheet sheetName wb.sheetNames with
      | none => (fs, Except.error ConvErr.sheetNotFound)
      | some sheet =>
        if sheet ∈ wb.sheetNames then
          let ws := wb.sheets sheet
          if ws.rng.er = 0 ∧ ws.rng.ec = 0 ∧ ws.cell 0 0 = none then
            (fs, Except.error ConvErr.emptyData)
          else
            let records := processExcelData ws
            if records.length = 0 then (fs, Except.error ConvErr.emptyData)
            else afterExtract fs outputFile headerFields records encryptOutput encStep elapsedMs
        else (fs, Except.error ConvErr.sheetNotFound)

/-- The `/convert` route around the orchestrator (routes/converter.js:146-329):
whatever `convert` did, the `finally` block deletes the uploaded temporary
input file — and only it. -/
def convertEndpoint (fs : FS) (inputFile outputFile : String)
    (parse : FileData → Option Workbook)
    (headerFields : List (String × Option String))
    (sheetName : Option String) (encryptOutput : Bool)
    (encStep : FileData → Option FileData)
    (elapsedMs : Nat) : FS × Except ConvErr (List (String × JsVal)) :=
  let r := convert fs inputFile outputFile parse headerFields sheetName encryptOutput
    encStep elapsedMs
  (fsDelete r.1 inputFile, r.2)

/-! ## File cipher (`utils/encryption.js`)

`encryptData` draws a fresh random 16-byte IV, runs `aes-256-cbc` over the
data and returns `base64(IV || ciphertext)`; `decryptData` reverses this.
The AES-256 block permutation itself lives inside node's `crypto` and is a
parameter (`blockE`/`blockD`) here; CBC chaining and PKCS#7 padding are the
documented `aes-256-cbc` semantics the code relies on. -/

/-- Bytewise XOR of two byte lists (CBC chaining). -/
def xorBytes (a b : List Nat) : List Nat :=
  List.zipWith (fun x y => x ^^^ y) a b

/-- PKCS#7 padding to a multiple of 16 bytes: append `p` copies of `p`,
where `p = 16 - len % 16` (always between 1 and 16). -/
def pkcs7Pad (data : List Nat) : List Nat :=
  data ++ List.replicate (16 - data.length % 16) (16 - data.length % 16)

/-- PKCS#7 unpadding with validation: the last byte names the pad length;
it must be between 1 and 16, not exceed the data, and all pad bytes must
equal it — otherwise the decipher throws (`bad decrypt`). -/
def pkcs7Unpad (l : List Nat) : Option (List Nat) :=
  match l.reverse with
  | [] => none
  | p :: _ =>
    if 1 ≤ p ∧ p ≤ 16 ∧ p ≤ l.length ∧ (l.drop (l.length - p)).all (fun b => b = p)
    then some (l.take (l.length - p)) else none

/-- Fuel-indexed worker for splitting a byte list into 16-byte blocks; the
fuel is the list length, which strictly bounds the number of blocks. -/
def chunkGo : Nat → List Nat → List (List Nat)
  | _, [] => []
  | 0, _ :: _ => []
  | fuel + 1, c :: rest => ((c :: rest).take 16) :: chunkGo fuel ((c :: rest).drop 16)

/-- Split a byte list into consecutive 16-byte blocks. -/
def chunk16 (l : List Nat) : List (List Nat) :=
  chunkGo l.length l

/-- CBC encryption of a block sequence: each plaintext block is XORed with
the previous ciphertext block (initially the IV) and sent through the block
cipher. -/
def cbcEncBlocks (blockE : List Nat → List Nat) : List Nat → List (List Nat) → List (List Nat)
  | _, [] => []
  | prev, b :: bs =>
    let c := blockE (xorBytes prev b)
    c :: cbcEncBlocks blockE c bs

/-- CBC decryption of a block sequence. -/
def cbcDecBlocks (blockD : List Nat → List Nat) : List Nat → List (List Nat) → List (List Nat)
  | _, [] => []
  | prev, c :: cs => xorBytes prev (blockD c) :: cbcDecBlocks blockD c cs

/-- `aes-256-cbc` encryption of a byte stream: pad, chunk, chain. -/
def cbcEncrypt (blockE : List Nat → List Nat) (iv data : List Nat) : List Nat :=
  (cbcEncBlocks blockE iv (chunk16 (pkcs7Pad data))).flatten

/-- `aes-256-cbc` decryption of a byte stream: the decipher rejects input
that is not a whole number of blocks, then unpads. -/
def cbcDecrypt (blockD : List Nat → List Nat) (iv ct : List Nat) : Option (List Nat) :=
  if ct.length % 16 = 0 then pkcs7Unpad (cbcDecBlocks blockD iv (chunk16 ct)).flatten
  else none

/-- The base64 alphabet. -/
def b64Chars : List Char :=
  "ABCDEFGHIJKLMNOPQRSTUVWXYZabcdefghijklmnopqrstuvwxyz0123456789+/".data

/-- Encode a 6-bit value as its base64 character. -/
def b64Char (n : Nat) : Char :=
  b64Chars.getD n 'A'

/-- Position-tracking worker for the reverse base64 lookup. -/
def b64ValAux : Nat → List Char → Char → Option Nat
  | _, [], _ => none
  | i, d :: ds, c => if d = c then some i else b64ValAux (i + 1) ds c

/-- Decode one base64 character to its 6-bit value. -/
def b64Val (c : Char) : Option Nat :=
  b64ValAux 0 b64Chars c

/-- Regroup bytes (base 256) into 6-bit values, as base64 encoding does;
a trailing group of one or two bytes yields two or three values. -/
def toSextets : List Nat → List Nat
  | a :: b :: c :: rest =>
    (a / 4) :: ((a % 4) * 16 + b / 16) :: ((b % 16) * 4 + c / 64) :: (c % 64) :: toSextets rest
  | [a, b] => [a / 4, (a % 4) * 16 + b / 16, (b % 16) * 4]
  | [a] => [a / 4, (a % 4) * 16]
  | [] => []

/-- Regroup 6-bit values back into bytes, as base64 decoding does. -/
def fromSextets : List Nat → List Nat
  | w :: x :: y :: z :: rest =>
    (w * 4 + x / 16) :: ((x % 16) * 16 + y / 4) :: ((y % 4) * 64 + z) :: fromSextets rest
  | [w, x, y] => [w * 4 + x / 16, (x % 16) * 16 + y / 4]
  | [w, x] => [w * 4 + x / 16]
  | _ => []

/-- `Buffer.prototype.toString("base64")`: sextet characters followed by the
`=` padding that completes the last 4-character group. -/
def b64Encode (bs : List Nat) : String :=
  String.mk ((toSextets bs).map b64Char ++ List.replicate ((3 - bs.length % 3) % 3) '=')

/-- Collect a list of optional values, failing if any is missing. -/
def seqOption : List (Option Nat) → Option (List Nat)
  | [] => some []
  | none :: _ => none
  | some a :: rest => (seqOption rest).map (fun as => a :: as)

/-- `Buffer.from(s, "base64")`: drop padding, decode each character, and
regroup into bytes. -/
def b64Decode (s : String) : Option (List Nat) :=
  (seqOption ((s.data.filter (fun c => c ≠ '=')).map b64Val)).map fromSextets

/-- Model of `AESEncryption.encryptData` (encryption.js:193-223) with the
fresh random IV made explicit: encrypt with the derived key under CBC and
return `base64(IV || ciphertext)`. -/
def encryptData (blockE : List Nat → List Nat) (iv data : List Nat) : String :=
  b64Encode (iv ++ cbcEncrypt blockE iv data)

/-- Model of `AESEncryption.decryptData` (encryption.js:228-256): decode the
base64, split off the first 16 bytes as the IV (fewer than 16 bytes cannot
form an IV and the decipher constructor throws), and decrypt the rest. -/
def decryptData (blockD : List Nat → List Nat) (s : String) : Option (List Nat) :=
  match b64Decode s with
  | none => none
  | some buf =>
    if buf.length < 16 then none
    else cbcDecrypt blockD (buf.take 16) (buf.drop 16)

/-- Bytes of a file as `fs.readFileSync(path)` (no encoding) returns them:
text written with `utf-8` reads back as its UTF-8 bytes. -/
def readBytes : FileData → List Nat
  | FileData.bytes bs => bs
  | FileData.text s => s.toUTF8.toList.map (fun b => b.toNat)

/-- Text of a file as `fs.readFileSync(path, "utf-8")` returns it. -/
def readText : FileData → String
  | FileData.text s => s
  | FileData.bytes bs => (String.fromUTF8? (ByteArray.mk (Array.mk (bs.map UInt8.ofNat)))).getD ""

/-- Model of `AESEncryption.encryptFile` (encryption.js:261-281): read the
input file, encrypt its bytes, write the base64 text to the output path. -/
def encryptFileFS (blockE : List Nat → List Nat) (iv : List Nat)
    (fs : FS) (inputPath outputPath : String) : Option FS :=
  match fs inputPath with
  | none => none
  | some d => some (fsWrite fs outputPath (FileData.text (encryptData blockE iv (readBytes d))))

/-- Model of `AESEncryption.decryptFile` (encryption.js:286-306): read the
encrypted text, decrypt it, write the plaintext bytes to the output path. -/
def decryptFileFS (blockD : List Nat → List Nat)
    (fs : FS) (inputPath outputPath : String) : Option FS :=
  match fs inputPath with
  | none => none
  | some d =>
    match decryptData blockD (readText d) with
    | none => none
    | some bs => some (fsWrite fs outputPath (FileData.bytes bs))

/-! ## Sanitizer lemmas -/

lemma allowedChar_not_space {c : Char} (h : allowedChar c = true) : isJsSpace c = false := by
  rw [Bool.eq_false_iff]
  intro hs
  simp only [allowedChar, Bool.or_eq_true, Bool.and_eq_true, decide_eq_true_eq] at h
  simp only [isJsSpace, Bool.or_eq_true, Bool.and_eq_true, decide_eq_true_eq] at hs
  omega

lemma dropWhile_no (p : Char → Bool) (l : List Char) (h : ∀ c ∈ l, p c = false) :
    l.dropWhile p = l := by
  cases l with
  | nil => rfl
  | cons c rest =>
    rw [List.dropWhile_cons_of_neg]
    simp [h c (by simp)]

lemma trimChars_allowed {l : List Char} (h : ∀ c ∈ l, allowedChar c = true) :
    trimChars l = l := by
  unfold trimChars
  rw [dropWhile_no _ _ (fun c hc => allowedChar_not_space (h c hc))]
  rw [dropWhile_no, List.reverse_reverse]
  intro c hc
  exact allowedChar_not_space (h c (by simpa using hc))

lemma collapseWsAux_no_space {l : List Char} (h : ∀ c ∈ l, isJsSpace c = false) (b : Bool) :
    collapseWsAux b l = l := by
  induction l generalizing b with
  | nil => rfl
  | cons c rest ih =>
    have hc : isJsSpace c = false := h c (by simp)
    simp only [collapseWsAux, hc, Bool.false_eq_true, if_false, List.cons.injEq, true_and]
    exact ih (fun d hd => h d (by simp [hd])) false

lemma sanitize_fixed {c : Char} {cs : List Char} (hc : startOk c = true)
    (hall : ∀ d ∈ c :: cs, allowedChar d = true) :
    sanitizeXmlTag (String.mk (c :: cs)) = String.mk (c :: cs) := by
  have hne : (String.mk (c :: cs)) ≠ "" := by
    simp [String.ext_iff]
  have hdata : (String.mk (c :: cs)).data = c :: cs := rfl
  have hnos : ∀ d ∈ c :: cs, isJsSpace d = false :=
    fun d hd => allowedChar_not_space (hall d hd)
  simp only [sanitizeXmlTag, if_neg hne, hdata, trimChars_allowed hall, collapseWs,
    collapseWsAux_no_space hnos, List.filter_eq_self.mpr hall, prependIfNeeded, hc, if_true]
  simp

lemma sanitize_shape (tag : String) (h : tag ≠ "") :
    ∃ c cs, sanitizeXmlTag tag = String.mk (c :: cs) ∧ startOk c = true ∧
      (∀ d ∈ c :: cs, allowedChar d = true) := by
  simp only [sanitizeXmlTag, if_neg h]
  have hallt : ∀ d ∈ (collapseWs (trimChars tag.data)).filter allowedChar,
      allowedChar d = true := fun d hd => List.of_mem_filter hd
  cases he : (collapseWs (trimChars tag.data)).filter allowedChar with
  | nil =>
    refine ⟨'_', [], by simp [prependIfNeeded], by decide, by decide⟩
  | cons c cs =>
    rw [he] at hallt
    by_cases hs : startOk c = true
    · refine ⟨c, cs, ?_, hs, hallt⟩
      simp [prependIfNeeded, hs]
    · refine ⟨'_', c :: cs, ?_, by decide, ?_⟩
      · simp [prependIfNeeded, hs]
      · intro d hd
        simp only [List.mem_cons] at hd
        rcases hd with rfl | hd
        · decide
        · exact hallt d (List.mem_cons.mpr hd)

/-- Claim C8 (confirmed): the tag sanitizer is idempotent — sanitizing an
already-sanitized string changes nothing, for every input string. -/
theorem sanitize_idempotent (s : String) :
    sanitizeXmlTag (sanitizeXmlTag s) = sanitizeXmlTag s := by
  by_cases h : s = ""
  · subst h
    decide
  · obtain ⟨c, cs, heq, hc, hall⟩ := sanitize_shape s h
    rw [heq, sanitize_fixed hc hall]

/-- Claim C3 (counterexample): the input `"@@@"` is entirely removed by the
character-removal step, yet the sanitizer returns `"_"`, not `"EMPTY_TAG"`:
the underscore is prepended before the final emptiness test, which is
therefore unreachable. -/
theorem sanitize_strip_counterexample :
    (collapseWs (trimChars ("@@@" : String).data)).filter allowedChar = [] ∧
    sanitizeXmlTag "@@@" = "_" ∧ sanitizeXmlTag "@@@" ≠ "EMPTY_TAG" := by
  decide

/-- Claim C3 (amended): for every non-empty input string whose characters
are entirely removed by the removal step, the sanitizer returns `"_"` (the
underscore prepended by step 4), not `"EMPTY_TAG"`; `"EMPTY_TAG"` is
returned only for the empty input. -/
theorem sanitize_strip_amended (s : String) (h1 : s ≠ "")
    (h2 : (collapseWs (trimChars s.data)).filter allowedChar = []) :
    sanitizeXmlTag s = "_" := by
  simp only [sanitizeXmlTag, if_neg h1, h2]
  decide

/-- Witness for the amended claim C3 at the concrete input `"@@@"`. -/
theorem sanitize_strip_amended_witness : sanitizeXmlTag "@@@" = "_" :=
  sanitize_strip_amended "@@@" (by decide) (by decide)

/-- Claim C6 (confirmed): the text the extractor stores for a cell is the
cell's formatted display value when that is present and non-empty, else the
stringified raw value when present, else the empty string; in particular a
cell with raw value `7` but display text `"007"` is stored as `"007"`. -/
theorem getDisplay_contract :
    (∀ w v, w ≠ "" → getDisplay (some ⟨some w, v⟩) = w) ∧
    (∀ v, getDisplay (some ⟨none, v⟩) = v.getD "") ∧
    (∀ v, getDisplay (some ⟨some "", v⟩) = v.getD "") ∧
    getDisplay none = "" ∧
    getDisplay (some ⟨some "007", some "7"⟩) = "007" := by
  refine ⟨?_, ?_, ?_, rfl, by decide⟩
  · intro w v hw
    simp [getDisplay, hw]
  · intro v
    rfl
  · intro v
    simp [getDisplay]

/-- Witness for claim C6: the display-over-raw rule applied at the claim's
own example. -/
theorem getDisplay_contract_witness : getDisplay (some ⟨some "007", some "7"⟩) = "007" :=
  getDisplay_contract.1 "007" (some "7") (by decide)

/-! ## XML shape (claim C4) -/

lemma zip_rows (records : List (List (String × String))) :
    ∀ p ∈ (records.map rowElem).zip records,
      p.1.nameOf = "CALLREPORT_DATA" ∧ p.1.childrenOf.length = p.2.length := by
  induction records with
  | nil =>
    intro p hp
    simp at hp
  | cons r rs ih =>
    intro p hp
    simp only [List.map_cons, List.zip_cons_cons, List.mem_cons] at hp
    rcases hp with rfl | hp
    · exact ⟨rfl, by simp [rowElem, XmlNode.childrenOf]⟩
    · exact ih p hp

/-- Claim C4 (confirmed): for a conversion of `records` with `hf`
caller-supplied header fields, the assembled document's root has exactly one
`HEADER` section child iff `hf` is non-empty, that section carries one child
per field in caller order, the root has exactly one `BODY` section child, and
the body holds one row element per record, each row having one child per
field of its record. -/
theorem xml_shape (hf : List (String × Option String))
    (records : List (List (String × String))) :
    ((buildXml hf records).childrenOf.filter (fun c => c.nameOf == "HEADER")).length
      = (if 0 < hf.length then 1 else 0) ∧
    (∀ hd ∈ (buildXml hf records).childrenOf.filter (fun c => c.nameOf == "HEADER"),
      hd.childrenOf
        = hf.map (fun kv => XmlNode.elem (headerTag kv.1) [XmlNode.text (kv.2.getD "")])) ∧
    ((buildXml hf records).childrenOf.filter (fun c => c.nameOf == "BODY")).length = 1 ∧
    (∀ b ∈ (buildXml hf records).childrenOf.filter (fun c => c.nameOf == "BODY"),
      b.childrenOf.length = records.length ∧
      ∀ p ∈ b.childrenOf.zip records,
        p.1.nameOf = "CALLREPORT_DATA" ∧ p.1.childrenOf.length = p.2.length) := by
  cases hf with
  | nil =>
    have hch : (buildXml [] records).childrenOf
        = [XmlNode.elem "BODY" (records.map rowElem)] := by
      simp [buildXml, headerPart, XmlNode.childrenOf]
    refine ⟨?_, ?_, ?_, ?_⟩ <;> rw [hch]
    · simp +decide [List.filter, XmlNode.nameOf]
    · intro hd hmem
      simp +decide [List.filter, XmlNode.nameOf] at hmem
    · simp +decide [List.filter, XmlNode.nameOf]
    · intro b hmem
      simp +decide [List.filter, XmlNode.nameOf] at hmem
      subst hmem
      exact ⟨by simp [XmlNode.childrenOf], by simpa [XmlNode.childrenOf] using zip_rows records⟩
  | cons kv rest =>
    have hch : (buildXml (kv :: rest) records).childrenOf
        = [XmlNode.elem "HEADER"
             ((kv :: rest).map
               (fun kv => XmlNode.elem (headerTag kv.1) [XmlNode.text (kv.2.getD "")])),
           XmlNode.elem "BODY" (records.map rowElem)] := by
      simp [buildXml, headerPart, XmlNode.childrenOf]
    refine ⟨?_, ?_, ?_, ?_⟩ <;> rw [hch]
    · simp +decide [List.filter, XmlNode.nameOf]
    · intro hd hmem
      simp +decide [List.filter, XmlNode.nameOf] at hmem
      subst hmem
      simp [XmlNode.childrenOf]
    · simp +decide [List.filter, XmlNode.nameOf]
    · intro b hmem
      simp +decide [List.filter, XmlNode.nameOf] at hmem
      subst hmem
      exact ⟨by simp [XmlNode.childrenOf], by simpa [XmlNode.childrenOf] using zip_rows records⟩

/-! ## Orchestrator pipeline lemmas -/

lemma rowIdxs_er0 (ws : Worksheet) (h : ws.rng.er = 0) : rowIdxs ws = [] := by
  unfold rowIdxs
  rw [h]
  simp

lemma processExcelData_er0 (ws : Worksheet) (h : ws.rng.er = 0) :
    processExcelData ws = [] := by
  unfold processExcelData
  rw [rowIdxs_er0 ws h]
  rfl

lemma convert_reaches (fs : FS) (inputFile outputFile : String)
    (parse : FileData → Option Workbook) (hf : List (String × Option String))
    (sheetName : Option String) (encryptOutput : Bool)
    (encStep : FileData → Option FileData) (elapsedMs : Nat)
    (inData : FileData) (wb : Workbook) (sheet : String)
    (hin : fs inputFile = some inData) (hparse : parse inData = some wb)
    (hsel : selectSheet sheetName wb.sheetNames = some sheet)
    (hmem : sheet ∈ wb.sheetNames)
    (hrec : processExcelData (wb.sheets sheet) ≠ []) :
    convert fs inputFile outputFile parse hf sheetName encryptOutput encStep elapsedMs
      = afterExtract fs outputFile hf (processExcelData (wb.sheets sheet))
          encryptOutput encStep elapsedMs := by
  have hA1 : ¬((wb.sheets sheet).rng.er = 0 ∧ (wb.sheets sheet).rng.ec = 0 ∧
      (wb.sheets sheet).cell 0 0 = none) := by
    rintro ⟨h1, -, -⟩
    exact hrec (processExcelData_er0 _ h1)
  have hlen : ¬(processExcelData (wb.sheets sheet)).length = 0 := by
    rw [List.length_eq_zero]
    exact hrec
  simp only [convert, hin, hparse, hsel, if_pos hmem, if_neg hA1, if_neg hlen]

/-- Claim C5 (confirmed): when extraction yields no records, the conversion
fails with the empty-data error and the filesystem is untouched — in
particular no output file is created at the output path.  (The explicit
empty-sheet precheck raises the same error, so the conclusion holds whether
or not that precheck fires first.) -/
theorem convert_emptyData (fs : FS) (inputFile outputFile : String)
    (parse : FileData → Option Workbook) (hf : List (String × Option String))
    (sheetName : Option String) (encryptOutput : Bool)
    (encStep : FileData → Option FileData) (elapsedMs : Nat)
    (inData : FileData) (wb : Workbook) (sheet : String)
    (hin : fs inputFile = some inData) (hparse : parse inData = some wb)
    (hsel : selectSheet sheetName wb.sheetNames = some sheet)
    (hmem : sheet ∈ wb.sheetNames)
    (hempty : processExcelData (wb.sheets sheet) = []) :
    (convert fs inputFile outputFile parse hf sheetName encryptOutput
        encStep elapsedMs).2 = Except.error ConvErr.emptyData ∧
    ∀ p, (convert fs inputFile outputFile parse hf sheetName encryptOutput
        encStep elapsedMs).1 p = fs p := by
  by_cases hA1 : (wb.sheets sheet).rng.er = 0 ∧ (wb.sheets sheet).rng.ec = 0 ∧
      (wb.sheets sheet).cell 0 0 = none
  · simp only [convert, hin, hparse, hsel, if_pos hmem, if_pos hA1]
    exact ⟨by trivial, fun p => by trivial⟩
  · simp only [convert, hin, hparse, hsel, if_pos hmem, if_neg hA1, hempty,
      List.length_nil, if_pos rfl]
    exact ⟨by trivial, fun p => by trivial⟩

/-- Worksheet with a header row and one blank data row: extraction yields no
records. -/
def wsHeaderOnly : Worksheet :=
  ⟨⟨0, 0, 1, 0⟩, fun r c => if r = 0 ∧ c = 0 then some ⟨some "H", none⟩ else none⟩

/-- Workbook holding only `wsHeaderOnly` under the name `"S"`. -/
def wbHeaderOnly : Workbook := ⟨["S"], fun _ => wsHeaderOnly⟩

/-- Worksheet with header `H` and one data row containing `x`. -/
def wsOne : Worksheet :=
  ⟨⟨0, 0, 1, 0⟩, fun r c =>
    if r = 0 ∧ c = 0 then some ⟨some "H", none⟩
    else if r = 1 ∧ c = 0 then some ⟨some "x", none⟩
    else none⟩

/-- Workbook holding only `wsOne` under the name `"S"`. -/
def wbOne : Workbook := ⟨["S"], fun _ => wsOne⟩

/-- A filesystem holding just the uploaded input file. -/
def fsIn : FS := fun p => if p = "in.xlsx" then some (FileData.bytes [1]) else none

/-- Witness for claim C5 at a concrete header-only sheet: the error is the
empty-data error and the output path stays absent. -/
theorem convert_emptyData_witness :
    (convert fsIn "in.xlsx" "out.xml" (fun _ => some wbHeaderOnly) [] none false
        (fun d => some d) 3).2 = Except.error ConvErr.emptyData ∧
    (convert fsIn "in.xlsx" "out.xml" (fun _ => some wbHeaderOnly) [] none false
        (fun d => some d) 3).1 "out.xml" = none := by
  have h := convert_emptyData fsIn "in.xlsx" "out.xml" (fun _ => some wbHeaderOnly) [] none
    false (fun d => some d) 3 (FileData.bytes [1]) wbHeaderOnly "S"
    (by decide) rfl (by decide) (by decide) (by decide)
  refine ⟨h.1, ?_⟩
  rw [h.2 "out.xml"]
  decide

/-- Equality of `Except` results is decidable componentwise; needed to
evaluate concrete conversion outcomes. -/
instance {e a : Type} [DecidableEq e] [DecidableEq a] : DecidableEq (Except e a) := fun x y =>
  match x, y with
  | Except.error e1, Except.error e2 =>
    if h : e1 = e2 then isTrue (h ▸ rfl) else isFalse (fun he => h (Except.error.inj he))
  | Except.error _, Except.ok _ => isFalse (fun he => Except.noConfusion he)
  | Except.ok _, Except.error _ => isFalse (fun he => Except.noConfusion he)
  | Except.ok a1, Except.ok a2 =>
    if h : a1 = a2 then isTrue (h ▸ rfl) else isFalse (fun he => h (Except.ok.inj he))

/-! ## The returned summary (claim C9) -/

/-- Claim C9 (amended, proved): every successful conversion returns exactly
the object `{ success: true, rowsProcessed: <n>, conversionTime: <elapsed> }`;
no entry of the summary is a string, so the final output path is not part of
the returned summary (the code only logs it). -/
theorem convert_success_summary (fs : FS) (inputFile outputFile : String)
    (parse : FileData → Option Workbook) (hf : List (String × Option String))
    (sheetName : Option String) (encryptOutput : Bool)
    (encStep : FileData → Option FileData) (elapsedMs : Nat)
    (s : List (String × JsVal))
    (h : (convert fs inputFile outputFile parse hf sheetName encryptOutput
        encStep elapsedMs).2 = Except.ok s) :
    (∃ n, s = [("success", JsVal.bool true), ("rowsProcessed", JsVal.num n),
      ("conversionTime", JsVal.num elapsedMs)]) ∧
    ∀ kv ∈ s, ∀ t : String, kv.2 ≠ JsVal.str t := by
  unfold convert at h
  cases hfs : fs inputFile with
  | none => simp [hfs] at h
  | some inData =>
    simp only [hfs] at h
    cases hp : parse inData with
    | none => simp [hp] at h
    | some wb =>
      simp only [hp] at h
      cases hs : selectSheet sheetName wb.sheetNames with
      | none => simp [hs] at h
      | some sheet =>
        simp only [hs] at h
        by_cases hmem : sheet ∈ wb.sheetNames
        · rw [if_pos hmem] at h
          by_cases hA1 : (wb.sheets sheet).rng.er = 0 ∧ (wb.sheets sheet).rng.ec = 0 ∧
              (wb.sheets sheet).cell 0 0 = none
          · rw [if_pos hA1] at h
            simp at h
          · rw [if_neg hA1] at h
            by_cases hlen : (processExcelData (wb.sheets sheet)).length = 0
            · rw [if_pos hlen] at h
              simp at h
            · rw [if_neg hlen] at h
              simp only [afterExtract] at h
              by_cases henc : encryptOutput = true
              · rw [if_pos henc] at h
                cases hes : encStep (FileData.text (renderNode
                    (buildXml hf (processExcelData (wb.sheets sheet))))) with
                | none =>
                  simp [hes] at h
                | some ed =>
                  simp only [hes, Except.ok.injEq] at h
                  subst h
                  exact ⟨⟨_, rfl⟩, by simp [mkSummary]⟩
              · rw [if_neg henc] at h
                simp only [Except.ok.injEq] at h
                subst h
                exact ⟨⟨_, rfl⟩, by simp [mkSummary]⟩
        · rw [if_neg hmem] at h
          simp at h

/-- Claim C9 (counterexample): a concrete successful conversion with
encryption requested returns a summary whose entries are the success flag,
the row count and the elapsed time — no entry holds the final output path
`"out.xml.enc"` (nor the plaintext path), contradicting the claim that the
summary contains the final output path. -/
theorem summary_no_path_counterexample :
    encPathOf "out.xml" = "out.xml.enc" ∧
    (convert fsIn "in.xlsx" "out.xml" (fun _ => some wbOne) [] none true
        (fun _ => some (FileData.text "ENC")) 7).2 = Except.ok (mkSummary 1 7) ∧
    ∀ kv ∈ mkSummary 1 7,
      kv.2 ≠ JsVal.str "out.xml.enc" ∧ kv.2 ≠ JsVal.str "out.xml" := by
  decide

/-! ## Promotion to the encrypted path (claim C7) -/

/-- Claim C7 (counterexample): for the caller-supplied output path
`"out.txt"`, which contains no `".xml"`, the derived encrypted path equals
the output path, so after the encrypted content is written there the
`unlinkSync` of the plaintext deletes it again: the conversion reports
success yet no file exists at the encrypted path (nor anywhere else). -/
theorem encrypt_rename_counterexample :
    encPathOf "out.txt" = "out.txt" ∧
    (convert fsIn "in.xlsx" "out.txt" (fun _ => some wbOne) [] none true
        (fun _ => some (FileData.text "ENC")) 7).2 = Except.ok (mkSummary 1 7) ∧
    (convert fsIn "in.xlsx" "out.txt" (fun _ => some wbOne) [] none true
        (fun _ => some (FileData.text "ENC")) 7).1 (encPathOf "out.txt") = none := by
  decide

/-- Claim C7 (amended): for every successful conversion with encryption
requested whose derived encrypted path (first `".xml"` replaced by
`".xml.enc"`) differs from the output path — in particular for every output
path that ends in `".xml"` — the encrypted file exists at the encrypted path
afterwards and the unencrypted plaintext file has been removed. -/
theorem encrypt_rename_amended (fs : FS) (inputFile outputFile : String)
    (parse : FileData → Option Workbook) (hf : List (String × Option String))
    (sheetName : Option String)
    (encStep : FileData → Option FileData) (elapsedMs : Nat)
    (inData : FileData) (wb : Workbook) (sheet : String) (encData : FileData)
    (hin : fs inputFile = some inData) (hparse : parse inData = some wb)
    (hsel : selectSheet sheetName wb.sheetNames = some sheet)
    (hmem : sheet ∈ wb.sheetNames)
    (hrec : processExcelData (wb.sheets sheet) ≠ [])
    (hstep : encStep (FileData.text (renderNode
        (buildXml hf (processExcelData (wb.sheets sheet))))) = some encData)
    (hne : encPathOf outputFile ≠ outputFile) :
    (convert fs inputFile outputFile parse hf sheetName true encStep
        elapsedMs).1 (encPathOf outputFile) = some encData ∧
    (convert fs inputFile outputFile parse hf sheetName true encStep
        elapsedMs).1 outputFile = none ∧
    (convert fs inputFile outputFile parse hf sheetName true encStep
        elapsedMs).2
      = Except.ok (mkSummary (processExcelData (wb.sheets sheet)).length elapsedMs) := by
  rw [convert_reaches fs inputFile outputFile parse hf sheetName true encStep elapsedMs
    inData wb sheet hin hparse hsel hmem hrec]
  simp only [afterExtract, if_pos rfl, hstep]
  refine ⟨?_, ?_, rfl⟩
  · simp [fsDelete, fsWrite, hne]
  · simp [fsDelete]

/-- Witness for the amended claim C7 at a concrete conversion whose output
path ends in `".xml"`. -/
theorem encrypt_rename_amended_witness :
    (convert fsIn "in.xlsx" "out.xml" (fun _ => some wbOne) [] none true
        (fun _ => some (FileData.text "ENC")) 7).1 (encPathOf "out.xml")
      = some (FileData.text "ENC") ∧
    (convert fsIn "in.xlsx" "out.xml" (fun _ => some wbOne) [] none true
        (fun _ => some (FileData.text "ENC")) 7).1 "out.xml" = none := by
  have h := encrypt_rename_amended fsIn "in.xlsx" "out.xml" (fun _ => some wbOne) [] none
    (fun _ => some (FileData.text "ENC")) 7 (FileData.bytes [1]) wbOne "S"
    (FileData.text "ENC") (by decide) rfl (by decide) (by decide) (by decide) rfl (by decide)
  exact ⟨h.1, h.2.1⟩

/-! ## Exit handling after an encryption failure (claim C1) -/

/-- Claim C1 (counterexample): a concrete conversion whose encryption step
throws leaves the plaintext XML file in place at the output path even after
the route's exit handling has run — contradicting the claim that no
plaintext output file remains after the failed call. -/
theorem cleanup_counterexample :
    (convertEndpoint fsIn "in.xlsx" "out.xml" (fun _ => some wbOne) [] none true
        (fun _ => none) 3).2 = Except.error ConvErr.cipherError ∧
    (convertEndpoint fsIn "in.xlsx" "out.xml" (fun _ => some wbOne) [] none true
        (fun _ => none) 3).1 "out.xml" ≠ none ∧
    (convertEndpoint fsIn "in.xlsx" "out.xml" (fun _ => some wbOne) [] none true
        (fun _ => none) 3).1 "in.xlsx" = none := by
  decide

/-- Claim C1 (amended): when the encryption step throws after the plaintext
XML file was written, the plaintext file is indeed not promoted: nothing is
written at the encrypted path (it keeps its prior content).  But the
plaintext file is not deleted — it remains at the output path after the
failed call; the exit handling removes only the temporary input file. -/
theorem cleanup_amended (fs : FS) (inputFile outputFile : String)
    (parse : FileData → Option Workbook) (hf : List (String × Option String))
    (sheetName : Option String)
    (encStep : FileData → Option FileData) (elapsedMs : Nat)
    (inData : FileData) (wb : Workbook) (sheet : String)
    (hin : fs inputFile = some inData) (hparse : parse inData = some wb)
    (hsel : selectSheet sheetName wb.sheetNames = some sheet)
    (hmem : sheet ∈ wb.sheetNames)
    (hrec : processExcelData (wb.sheets sheet) ≠ [])
    (hstep : encStep (FileData.text (renderNode
        (buildXml hf (processExcelData (wb.sheets sheet))))) = none) :
    (convertEndpoint fs inputFile outputFile parse hf sheetName true encStep
        elapsedMs).2 = Except.error ConvErr.cipherError ∧
    (inputFile ≠ outputFile →
      (convertEndpoint fs inputFile outputFile parse hf sheetName true encStep
          elapsedMs).1 outputFile
        = some (FileData.text (renderNode
            (buildXml hf (processExcelData (wb.sheets sheet)))))) ∧
    (encPathOf outputFile ≠ outputFile → encPathOf outputFile ≠ inputFile →
      (convertEndpoint fs inputFile outputFile parse hf sheetName true encStep
          elapsedMs).1 (encPathOf outputFile) = fs (encPathOf outputFile)) ∧
    (convertEndpoint fs inputFile outputFile parse hf sheetName true encStep
        elapsedMs).1 inputFile = none := by
  unfold convertEndpoint
  rw [convert_reaches fs inputFile outputFile parse hf sheetName true encStep elapsedMs
    inData wb sheet hin hparse hsel hmem hrec]
  simp only [afterExtract, if_pos rfl, hstep]
  refine ⟨rfl, ?_, ?_, ?_⟩
  · intro hio
    simp [fsDelete, fsWrite, Ne.symm hio]
  · intro h1 h2
    simp [fsDelete, fsWrite, h1, h2]
  · simp [fsDelete]

/-- Witness for the amended claim C1 at a concrete failing encryption. -/
theorem cleanup_amended_witness :
    (convertEndpoint fsIn "in.xlsx" "out.xml" (fun _ => some wbOne) [] none true
        (fun _ => none) 3).2 = Except.error ConvErr.cipherError ∧
    (convertEndpoint fsIn "in.xlsx" "out.xml" (fun _ => some wbOne) [] none true
        (fun _ => none) 3).1 "out.xml"
      = some (FileData.text (renderNode (buildXml [] (processExcelData wsOne)))) := by
  have h := cleanup_amended fsIn "in.xlsx" "out.xml" (fun _ => some wbOne) [] none
    (fun _ => none) 3 (FileData.bytes [1]) wbOne "S"
    (by decide) rfl (by decide) (by decide) (by decide) rfl
  exact ⟨h.1, h.2.1 (by decide)⟩

/-- Witness for the amended claim C9: the summary-shape theorem applied to a
concrete successful conversion. -/
theorem convert_success_summary_witness :
    (∃ n, mkSummary 1 7 = [("success", JsVal.bool true), ("rowsProcessed", JsVal.num n),
      ("conversionTime", JsVal.num 7)]) ∧
    ∀ kv ∈ mkSummary 1 7, ∀ t : String, kv.2 ≠ JsVal.str t :=
  convert_success_summary fsIn "in.xlsx" "out.xml" (fun _ => some wbOne) [] none false
    (fun d => some d) 7 (mkSummary 1 7) (by decide)

/-! ## Records under duplicate header names (claim C10) -/

/-- Keys of a record, in order. -/
def keysOf (l : List (String × String)) : List String :=
  l.map Prod.fst

/-- Value of the last pair carrying key `k`, if any. -/
def lastVal (k : String) : List (String × String) → Option String
  | [] => none
  | p :: ps =>
    match lastVal k ps with
    | some v => some v
    | none => if p.1 = k then some p.2 else none

/-- Key set after inserting `k`: unchanged when present, appended when new. -/
def insKey (ks : List String) (k : String) : List String :=
  if k ∈ ks then ks else ks ++ [k]

/-- How many of the keys in `l` (processed left to right) were already
present, starting from the key set `ks`. -/
def dupCount : List String → List String → Nat
  | _, [] => 0
  | ks, k :: l => (if k ∈ ks then 1 else 0) + dupCount (insKey ks k) l

lemma lookup_cons (k a b : String) (l : List (String × String)) :
    List.lookup k ((a, b) :: l) = if k = a then some b else List.lookup k l := by
  by_cases h : k = a
  · simp [List.lookup, h]
  · have hb : (k == a) = false := beq_false_of_ne h
    simp [List.lookup, hb, h]

lemma recInsert_lookup_self (r : List (String × String)) (k v : String) :
    (recInsert r k v).lookup k = some v := by
  induction r with
  | nil => simp [recInsert, lookup_cons]
  | cons p ps ih =>
    obtain ⟨a, b⟩ := p
    by_cases h : a = k
    · simp [recInsert, h, lookup_cons]
    · simp only [recInsert, h, if_false]
      rw [lookup_cons, if_neg (fun he => h he.symm)]
      exact ih

lemma recInsert_lookup_ne (r : List (String × String)) (k v k2 : String) (h : k2 ≠ k) :
    (recInsert r k v).lookup k2 = r.lookup k2 := by
  induction r with
  | nil => simp [recInsert, lookup_cons, h]
  | cons p ps ih =>
    obtain ⟨a, b⟩ := p
    by_cases ha : a = k
    · subst ha
      have hri : recInsert ((a, b) :: ps) a v = (a, v) :: ps := by simp [recInsert]
      rw [hri, lookup_cons, lookup_cons, if_neg h, if_neg h]
    · simp only [recInsert, ha, if_false]
      rw [lookup_cons, lookup_cons]
      by_cases hk2 : k2 = a
      · simp [hk2]
      · rw [if_neg hk2, if_neg hk2]
        exact ih

lemma buildAux_lookup (k : String) (ps : List (String × String)) :
    ∀ r, (ps.foldl (fun rec p => recInsert rec p.1 p.2) r).lookup k
      = match lastVal k ps with
        | some v => some v
        | none => r.lookup k := by
  induction ps with
  | nil => intro r; rfl
  | cons p ps ih =>
    intro r
    rw [List.foldl_cons, ih]
    cases hl : lastVal k ps with
    | some v => simp [lastVal, hl]
    | none =>
      simp only [lastVal, hl]
      by_cases hk : p.1 = k
      · rw [if_pos hk, ← hk]
        exact recInsert_lookup_self r p.1 p.2
      · rw [if_neg hk]
        exact recInsert_lookup_ne r p.1 p.2 k (fun he => hk he.symm)

lemma recInsert_keys (r : List (String × String)) (k v : String) :
    keysOf (recInsert r k v) = insKey (keysOf r) k := by
  induction r with
  | nil => simp [recInsert, keysOf, insKey]
  | cons p ps ih =>
    obtain ⟨a, b⟩ := p
    by_cases h : a = k
    · subst h
      simp [recInsert, keysOf, insKey]
    · have hne : ¬(k = a) := fun he => h he.symm
      simp only [recInsert, h, if_false, keysOf, List.map_cons] at ih ⊢
      rw [ih]
      simp only [insKey, keysOf, List.mem_cons, hne, false_or]
      by_cases hm : k ∈ ps.map Prod.fst
      · simp [hm]
      · simp [hm]

lemma buildAux_keys (ps : List (String × String)) :
    ∀ r, keysOf (ps.foldl (fun rec p => recInsert rec p.1 p.2) r)
      = (ps.map Prod.fst).foldl insKey (keysOf r) := by
  induction ps with
  | nil => intro r; rfl
  | cons p ps ih =>
    intro r
    rw [List.foldl_cons, ih, recInsert_keys, List.map_cons, List.foldl_cons]

lemma mem_insKey (ks : List String) (k a : String) :
    a ∈ insKey ks k ↔ a ∈ ks ∨ a = k := by
  unfold insKey
  by_cases h : k ∈ ks
  · rw [if_pos h]
    constructor
    · exact Or.inl
    · rintro (ha | rfl)
      · exact ha
      · exact h
  · rw [if_neg h]
    simp

lemma mem_foldl_insKey (l : List String) :
    ∀ ks a, a ∈ l.foldl insKey ks ↔ a ∈ ks ∨ a ∈ l := by
  induction l with
  | nil => simp
  | cons k l ih =>
    intro ks a
    rw [List.foldl_cons, ih, mem_insKey]
    simp only [List.mem_cons]
    tauto

lemma insKey_nodup (ks : List String) (k : String) (h : ks.Nodup) : (insKey ks k).Nodup := by
  unfold insKey
  by_cases hm : k ∈ ks
  · rwa [if_pos hm]
  · rw [if_neg hm]
    simp [List.nodup_append, h, hm]

lemma foldl_insKey_nodup (l : List String) :
    ∀ ks, ks.Nodup → (l.foldl insKey ks).Nodup := by
  induction l with
  | nil => intro ks h; exact h
  | cons k l ih =>
    intro ks h
    rw [List.foldl_cons]
    exact ih _ (insKey_nodup ks k h)

lemma insKey_length (ks : List String) (k : String) :
    (insKey ks k).length = ks.length + (if k ∈ ks then 0 else 1) := by
  unfold insKey
  by_cases h : k ∈ ks
  · simp [h]
  · simp [h]

lemma foldl_insKey_length (l : List String) :
    ∀ ks, (l.foldl insKey ks).length + dupCount ks l = ks.length + l.length := by
  induction l with
  | nil => intro ks; simp [dupCount]
  | cons k l ih =>
    intro ks
    rw [List.foldl_cons]
    have h := ih (insKey ks k)
    rw [insKey_length] at h
    unfold dupCount
    by_cases hm : k ∈ ks
    · simp only [hm, if_true, List.length_cons] at h ⊢
      omega
    · simp only [hm, if_false, List.length_cons] at h ⊢
      omega

lemma dupCount_append (l1 l2 : List String) :
    ∀ ks, dupCount ks (l1 ++ l2) = dupCount ks l1 + dupCount (l1.foldl insKey ks) l2 := by
  induction l1 with
  | nil => intro ks; simp [dupCount]
  | cons k l1 ih =>
    intro ks
    have e1 : dupCount ks ((k :: l1) ++ l2)
        = (if k ∈ ks then 1 else 0) + dupCount (insKey ks k) (l1 ++ l2) := rfl
    have e2 : dupCount ks (k :: l1)
        = (if k ∈ ks then 1 else 0) + dupCount (insKey ks k) l1 := rfl
    rw [e1, e2, ih (insKey ks k), List.foldl_cons]
    omega

lemma dupCount_cons (ks : List String) (k : String) (l : List String) :
    dupCount ks (k :: l) = (if k ∈ ks then 1 else 0) + dupCount (insKey ks k) l := rfl

lemma lastVal_append (k : String) (l1 l2 : List (String × String)) :
    lastVal k (l1 ++ l2)
      = match lastVal k l2 with
        | some v => some v
        | none => lastVal k l1 := by
  induction l1 with
  | nil =>
    cases h2 : lastVal k l2 <;> simp [h2, lastVal]
  | cons p l1 ih =>
    rw [List.cons_append]
    have e : lastVal k (p :: (l1 ++ l2))
        = match lastVal k (l1 ++ l2) with
          | some v => some v
          | none => if p.1 = k then some p.2 else none := rfl
    rw [e, ih]
    cases h2 : lastVal k l2 <;> cases h1 : lastVal k l1 <;> simp [lastVal, h1]

lemma lastVal_none (k : String) (l : List (String × String)) (h : ∀ p ∈ l, p.1 ≠ k) :
    lastVal k l = none := by
  induction l with
  | nil => rfl
  | cons p ps ih =>
    have e : lastVal k (p :: ps)
        = match lastVal k ps with
          | some v => some v
          | none => if p.1 = k then some p.2 else none := rfl
    rw [e, ih (fun q hq => h q (by simp [hq]))]
    simp [h p (by simp)]

lemma range'_split (s n c : Nat) (h : c ∈ List.range' s n) :
    List.range' s n
      = List.range' s (c - s) ++ c :: List.range' (c + 1) (s + n - c - 1) := by
  rw [List.mem_range'_1] at h
  have e1 : n = (s + n - c - 1 + 1) + (c - s) := by omega
  nth_rewrite 1 [e1]
  rw [← List.range'_append s (c - s) (s + n - c - 1 + 1) 1]
  have e2 : s + 1 * (c - s) = c := by omega
  rw [e2, List.range'_succ]

/-- Claim C10 (confirmed): when two columns in bounds share the same
(trimmed, possibly `COL_<n>`-synthesized) header name and `c2` is the
rightmost column with that name, every extracted record holds exactly one
field under the shared name, its value is the cell text of the rightmost
such column, and the record has fewer fields than the grid has columns in
bounds. -/
theorem duplicate_headers (ws : Worksheet) (c1 c2 : Nat)
    (h1 : c1 ∈ colIdxs ws) (h2 : c2 ∈ colIdxs ws) (hlt : c1 < c2)
    (hdup : headerMap ws c1 = headerMap ws c2)
    (hrm : ∀ c ∈ colIdxs ws, c2 < c → headerMap ws c ≠ headerMap ws c2) :
    ∀ rec ∈ processExcelData ws,
      (keysOf rec).count (headerMap ws c2) = 1 ∧
      (∃ r ∈ rowIdxs ws, rec = buildRecord (rowPairs ws r) ∧
        rec.lookup (headerMap ws c2) = some (cellText ws r c2)) ∧
      rec.length < (colIdxs ws).length := by
  intro rec hrec
  unfold processExcelData at hrec
  rw [List.mem_map] at hrec
  obtain ⟨r, hrf, hre⟩ := hrec
  have hr : r ∈ rowIdxs ws := List.mem_of_mem_filter hrf
  have h1' : ws.rng.sc ≤ c1 ∧ c1 < ws.rng.sc + (ws.rng.ec + 1 - ws.rng.sc) :=
    List.mem_range'_1.mp h1
  have h2' : ws.rng.sc ≤ c2 ∧ c2 < ws.rng.sc + (ws.rng.ec + 1 - ws.rng.sc) :=
    List.mem_range'_1.mp h2
  have hsplit : colIdxs ws
      = List.range' ws.rng.sc (c2 - ws.rng.sc)
        ++ c2 :: List.range' (c2 + 1)
            (ws.rng.sc + (ws.rng.ec + 1 - ws.rng.sc) - c2 - 1) :=
    range'_split ws.rng.sc (ws.rng.ec + 1 - ws.rng.sc) c2 h2
  have hc1A : c1 ∈ List.range' ws.rng.sc (c2 - ws.rng.sc) := by
    rw [List.mem_range'_1]
    omega
  have hBprop : ∀ c ∈ List.range' (c2 + 1)
      (ws.rng.sc + (ws.rng.ec + 1 - ws.rng.sc) - c2 - 1), c2 < c ∧ c ∈ colIdxs ws := by
    intro c hc
    rw [List.mem_range'_1] at hc
    refine ⟨by omega, ?_⟩
    show c ∈ List.range' ws.rng.sc (ws.rng.ec + 1 - ws.rng.sc)
    rw [List.mem_range'_1]
    omega
  have hpairs : rowPairs ws r
      = (List.range' ws.rng.sc (c2 - ws.rng.sc)).map
          (fun c => (headerMap ws c, cellText ws r c))
        ++ (headerMap ws c2, cellText ws r c2)
        :: (List.range' (c2 + 1) (ws.rng.sc + (ws.rng.ec + 1 - ws.rng.sc) - c2 - 1)).map
            (fun c => (headerMap ws c, cellText ws r c)) := by
    unfold rowPairs
    rw [hsplit, List.map_append, List.map_cons]
  have hlook : (buildRecord (rowPairs ws r)).lookup (headerMap ws c2)
      = some (cellText ws r c2) := by
    unfold buildRecord
    rw [buildAux_lookup]
    have hnone : lastVal (headerMap ws c2)
        ((List.range' (c2 + 1) (ws.rng.sc + (ws.rng.ec + 1 - ws.rng.sc) - c2 - 1)).map
          (fun c => (headerMap ws c, cellText ws r c))) = none := by
      apply lastVal_none
      intro p hp
      rw [List.mem_map] at hp
      obtain ⟨c, hc, rfl⟩ := hp
      exact hrm c (hBprop c hc).2 (hBprop c hc).1
    have hlv2 : lastVal (headerMap ws c2)
        ((headerMap ws c2, cellText ws r c2)
          :: (List.range' (c2 + 1) (ws.rng.sc + (ws.rng.ec + 1 - ws.rng.sc) - c2 - 1)).map
              (fun c => (headerMap ws c, cellText ws r c)))
        = some (cellText ws r c2) := by
      have e : lastVal (headerMap ws c2)
          ((headerMap ws c2, cellText ws r c2)
            :: (List.range' (c2 + 1) (ws.rng.sc + (ws.rng.ec + 1 - ws.rng.sc) - c2 - 1)).map
                (fun c => (headerMap ws c, cellText ws r c)))
          = match lastVal (headerMap ws c2)
              ((List.range' (c2 + 1) (ws.rng.sc + (ws.rng.ec + 1 - ws.rng.sc) - c2 - 1)).map
                (fun c => (headerMap ws c, cellText ws r c))) with
            | some v => some v
            | none => if (headerMap ws c2, cellText ws r c2).1 = headerMap ws c2
                then some (headerMap ws c2, cellText ws r c2).2 else none := rfl
      rw [e, hnone]
      simp
    rw [hpairs, lastVal_append, hlv2]
  have hkeysmap : (rowPairs ws r).map Prod.fst = (colIdxs ws).map (headerMap ws) := by
    unfold rowPairs
    rw [List.map_map]
    rfl
  have hkeys : keysOf (buildRecord (rowPairs ws r))
      = ((colIdxs ws).map (headerMap ws)).foldl insKey [] := by
    unfold buildRecord
    rw [buildAux_keys, hkeysmap]
    rfl
  have hnd : (keysOf (buildRecord (rowPairs ws r))).Nodup := by
    rw [hkeys]
    exact foldl_insKey_nodup _ [] List.nodup_nil
  have hmemk : headerMap ws c2 ∈ keysOf (buildRecord (rowPairs ws r)) := by
    rw [hkeys, mem_foldl_insKey]
    exact Or.inr (List.mem_map_of_mem _ h2)
  have hcnt : (keysOf (buildRecord (rowPairs ws r))).count (headerMap ws c2) = 1 := by
    have hle := List.nodup_iff_count_le_one.mp hnd (headerMap ws c2)
    have hge := List.count_pos_iff.mpr hmemk
    omega
  have hlenk : (keysOf (buildRecord (rowPairs ws r))).length
      + dupCount [] ((colIdxs ws).map (headerMap ws))
      = ((colIdxs ws).map (headerMap ws)).length := by
    rw [hkeys]
    simpa using foldl_insKey_length ((colIdxs ws).map (headerMap ws)) []
  have hdc : 1 ≤ dupCount [] ((colIdxs ws).map (headerMap ws)) := by
    have hKsplit : (colIdxs ws).map (headerMap ws)
        = (List.range' ws.rng.sc (c2 - ws.rng.sc)).map (headerMap ws)
          ++ headerMap ws c2
          :: (List.range' (c2 + 1) (ws.rng.sc + (ws.rng.ec + 1 - ws.rng.sc) - c2 - 1)).map
              (headerMap ws) := by
      rw [hsplit, List.map_append, List.map_cons]
    rw [hKsplit, dupCount_append, dupCount_cons]
    have hmemA : headerMap ws c2
        ∈ ((List.range' ws.rng.sc (c2 - ws.rng.sc)).map (headerMap ws)).foldl insKey [] := by
      rw [mem_foldl_insKey]
      refine Or.inr ?_
      rw [List.mem_map]
      exact ⟨c1, hc1A, hdup⟩
    rw [if_pos hmemA]
    omega
  have hreclen : rec.length = (keysOf rec).length := (List.length_map rec Prod.fst).symm
  have hcolslen : ((colIdxs ws).map (headerMap ws)).length = (colIdxs ws).length :=
    List.length_map _ _
  subst hre
  refine ⟨hcnt, ⟨r, hr, rfl, hlook⟩, ?_⟩
  omega

/-- Grid whose literal header `COL_2` in column 1 collides with the
placeholder synthesized for the blank header of column 2. -/
def wsDup : Worksheet :=
  ⟨⟨0, 0, 1, 1⟩, fun r c =>
    if r = 0 ∧ c = 0 then some ⟨some "COL_2", none⟩
    else if r = 1 ∧ c = 0 then some ⟨some "a", none⟩
    else if r = 1 ∧ c = 1 then some ⟨some "b", none⟩
    else none⟩

/-- Witness for claim C10 at the literal/synthesized `COL_2` collision. -/
theorem duplicate_headers_witness :
    (keysOf (buildRecord (rowPairs wsDup 1))).count (headerMap wsDup 1) = 1 ∧
    (buildRecord (rowPairs wsDup 1)).length < (colIdxs wsDup).length := by
  have h := duplicate_headers wsDup 0 1 (by decide) (by decide) (by decide) (by decide)
    (by decide) (buildRecord (rowPairs wsDup 1)) (by decide)
  exact ⟨h.1, h.2.2⟩

/-! ## Base64 round trip -/

lemma toSextets_lt (bs : List Nat) (h : ∀ b ∈ bs, b < 256) :
    ∀ s ∈ toSextets bs, s < 64 := by
  induction bs using toSextets.induct with
  | case1 a b c rest ih =>
    intro s hs
    have ha := h a (by simp)
    have hb := h b (by simp)
    have hc := h c (by simp)
    simp only [toSextets, List.mem_cons] at hs
    rcases hs with rfl | rfl | rfl | rfl | hs
    · omega
    · omega
    · omega
    · omega
    · exact ih (fun x hx => h x (by simp [hx])) s hs
  | case2 a b =>
    intro s hs
    have ha := h a (by simp)
    have hb := h b (by simp)
    simp only [toSextets, List.mem_cons] at hs
    rcases hs with rfl | rfl | rfl | hs
    · omega
    · omega
    · omega
    · simp at hs
  | case3 a =>
    intro s hs
    have ha := h a (by simp)
    simp only [toSextets, List.mem_cons] at hs
    rcases hs with rfl | rfl | hs
    · omega
    · omega
    · simp at hs
  | case4 =>
    intro s hs
    simp [toSextets] at hs

lemma fromSextets_toSextets (bs : List Nat) (h : ∀ b ∈ bs, b < 256) :
    fromSextets (toSextets bs) = bs := by
  induction bs using toSextets.induct with
  | case1 a b c rest ih =>
    have ha := h a (by simp)
    have hb := h b (by simp)
    have hc := h c (by simp)
    simp only [toSextets, fromSextets, List.cons.injEq]
    refine ⟨by omega, by omega, by omega, ih (fun x hx => h x (by simp [hx]))⟩
  | case2 a b =>
    have ha := h a (by simp)
    have hb := h b (by simp)
    simp only [toSextets, fromSextets, List.cons.injEq, and_true]
    exact ⟨by omega, by omega⟩
  | case3 a =>
    have ha := h a (by simp)
    simp only [toSextets, fromSextets, List.cons.injEq, and_true]
    omega
  | case4 => rfl

lemma b64Val_b64Char : ∀ n, n < 64 → b64Val (b64Char n) = some n := by decide

lemma b64Char_ne_pad : ∀ n, n < 64 → b64Char n ≠ '=' := by decide

lemma seqOption_map_some (l : List Nat) : seqOption (l.map some) = some l := by
  induction l with
  | nil => rfl
  | cons a as ih => simp [seqOption, ih]

lemma filter_pad_replicate (k : Nat) :
    (List.replicate k '=').filter (fun c => c ≠ '=') = [] := by
  induction k with
  | zero => rfl
  | succ n ih => simp [List.replicate_succ, List.filter, ih]

lemma b64_roundtrip (bs : List Nat) (h : ∀ b ∈ bs, b < 256) :
    b64Decode (b64Encode bs) = some bs := by
  have hlt := toSextets_lt bs h
  unfold b64Decode b64Encode
  have hdata : (String.mk ((toSextets bs).map b64Char
      ++ List.replicate ((3 - bs.length % 3) % 3) '=')).data
      = (toSextets bs).map b64Char ++ List.replicate ((3 - bs.length % 3) % 3) '=' := rfl
  rw [hdata, List.filter_append, filter_pad_replicate, List.append_nil]
  have hkeep : ((toSextets bs).map b64Char).filter (fun c => c ≠ '=')
      = (toSextets bs).map b64Char := by
    rw [List.filter_eq_self]
    intro c hc
    rw [List.mem_map] at hc
    obtain ⟨s, hs, rfl⟩ := hc
    simpa using b64Char_ne_pad s (hlt s hs)
  rw [hkeep, List.map_map]
  have hvals : (toSextets bs).map (b64Val ∘ b64Char) = (toSextets bs).map some := by
    apply List.map_congr_left
    intro s hs
    exact b64Val_b64Char s (hlt s hs)
  rw [hvals, seqOption_map_some]
  simp [fromSextets_toSextets bs h]

/-! ## CBC and padding round trip -/

lemma xorBytes_length (a b : List Nat) : (xorBytes a b).length = min a.length b.length := by
  simp [xorBytes]

lemma xorBytes_cancel (a : List Nat) :
    ∀ b, a.length = b.length → xorBytes a (xorBytes a b) = b := by
  induction a with
  | nil =>
    intro b hb
    cases b with
    | nil => rfl
    | cons x xs => simp at hb
  | cons x xs ih =>
    intro b hb
    cases b with
    | nil => simp at hb
    | cons y ys =>
      simp only [xorBytes, List.zipWith_cons_cons] at *
      rw [List.length_cons, List.length_cons] at hb
      refine congrArg₂ (· :: ·) ?_ (ih ys (by omega))
      rw [← Nat.xor_assoc, Nat.xor_self, Nat.zero_xor]

lemma xorBytes_lt (a b : List Nat) (ha : ∀ x ∈ a, x < 256) (hb : ∀ x ∈ b, x < 256) :
    ∀ x ∈ xorBytes a b, x < 256 := by
  induction a generalizing b with
  | nil => intro x hx; simp [xorBytes] at hx
  | cons c cs ih =>
    intro x hx
    cases b with
    | nil => simp [xorBytes] at hx
    | cons d ds =>
      simp only [xorBytes, List.zipWith_cons_cons, List.mem_cons] at hx
      rcases hx with rfl | hx
      · have h1 : c < 2 ^ 8 := ha c (by simp)
        have h2 : d < 2 ^ 8 := hb d (by simp)
        exact Nat.xor_lt_two_pow h1 h2
      · exact ih ds (fun y hy => ha y (by simp [hy])) (fun y hy => hb y (by simp [hy])) x hx

lemma chunkGo_fuel : ∀ f1 f2 (l : List Nat), l.length ≤ f1 → l.length ≤ f2 →
    chunkGo f1 l = chunkGo f2 l := by
  intro f1
  induction f1 with
  | zero =>
    intro f2 l h1 h2
    cases l with
    | nil => cases f2 <;> rfl
    | cons c rest => simp at h1
  | succ f ih =>
    intro f2 l h1 h2
    cases l with
    | nil => cases f2 <;> rfl
    | cons c rest =>
      cases f2 with
      | zero => simp at h2
      | succ f2n =>
        simp only [chunkGo]
        refine congrArg₂ (· :: ·) rfl (ih f2n ((c :: rest).drop 16) ?_ ?_) <;>
          simp only [List.length_drop, List.length_cons] at * <;> omega

lemma chunk16_eq (l : List Nat) :
    chunk16 l = if l = [] then [] else l.take 16 :: chunk16 (l.drop 16) := by
  cases l with
  | nil => rfl
  | cons c rest =>
    rw [if_neg (List.cons_ne_nil c rest)]
    show chunkGo (c :: rest).length (c :: rest) = _
    rw [List.length_cons]
    simp only [chunkGo]
    refine congrArg₂ (· :: ·) rfl ?_
    apply chunkGo_fuel
    · simp only [List.length_drop, List.length_cons]
      omega
    · exact Nat.le_refl _

lemma chunk16_flatten (bs : List (List Nat)) (h : ∀ b ∈ bs, b.length = 16) :
    chunk16 bs.flatten = bs := by
  induction bs with
  | nil => rfl
  | cons b rest ih =>
    have hb : b.length = 16 := h b (by simp)
    have hbne : b ++ rest.flatten ≠ [] := by
      intro he
      have : b = [] := by
        cases b with
        | nil => rfl
        | cons x xs => simp at he
      rw [this] at hb
      simp at hb
    rw [List.flatten_cons, chunk16_eq, if_neg hbne]
    have ht : (b ++ rest.flatten).take 16 = b := by
      rw [← hb]
      exact List.take_left ..
    have hd : (b ++ rest.flatten).drop 16 = rest.flatten := by
      rw [← hb]
      exact List.drop_left ..
    rw [ht, hd, ih (fun x hx => h x (by simp [hx]))]

lemma flatten_chunk16 : ∀ n (l : List Nat), l.length ≤ n → (chunk16 l).flatten = l := by
  intro n
  induction n with
  | zero =>
    intro l h
    have : l = [] := by
      cases l with
      | nil => rfl
      | cons c cs => simp at h
    rw [this]
    rfl
  | succ m ih =>
    intro l h
    rw [chunk16_eq]
    by_cases he : l = []
    · rw [if_pos he, he]
      rfl
    · have hlen : (l.drop 16).length ≤ m := by
        have : 0 < l.length := List.length_pos.mpr he
        simp only [List.length_drop]
        omega
      rw [if_neg he, List.flatten_cons, ih (l.drop 16) hlen, List.take_append_drop]

lemma chunk16_len16 : ∀ m (l : List Nat), l.length = 16 * m →
    ∀ b ∈ chunk16 l, b.length = 16 := by
  intro m
  induction m with
  | zero =>
    intro l h b hb
    have : l = [] := List.length_eq_zero.mp (by omega)
    rw [this] at hb
    simp [chunk16, chunkGo] at hb
  | succ k ih =>
    intro l h b hb
    have hne : l ≠ [] := by
      intro he
      rw [he] at h
      simp only [List.length_nil] at h
      omega
    rw [chunk16_eq, if_neg hne, List.mem_cons] at hb
    rcases hb with rfl | hb
    · simp only [List.length_take]
      omega
    · refine ih (l.drop 16) ?_ b hb
      simp only [List.length_drop]
      omega

lemma chunk16_all (P : Nat → Prop) : ∀ n (l : List Nat), l.length ≤ n → (∀ x ∈ l, P x) →
    ∀ b ∈ chunk16 l, ∀ x ∈ b, P x := by
  intro n
  induction n with
  | zero =>
    intro l hn hP b hb
    have : l = [] := by
      cases l with
      | nil => rfl
      | cons c cs => simp at hn
    rw [this] at hb
    simp [chunk16, chunkGo] at hb
  | succ m ih =>
    intro l hn hP b hb
    by_cases he : l = []
    · rw [he] at hb
      simp [chunk16, chunkGo] at hb
    · rw [chunk16_eq, if_neg he, List.mem_cons] at hb
      rcases hb with rfl | hb
      · intro x hx
        exact hP x (List.take_subset 16 l hx)
      · refine ih (l.drop 16) ?_ (fun x hx => hP x (List.drop_subset 16 l hx)) b hb
        have : 0 < l.length := List.length_pos.mpr he
        simp only [List.length_drop]
        omega

lemma flatten_len16 (bs : List (List Nat)) (h : ∀ b ∈ bs, b.length = 16) :
    bs.flatten.length = 16 * bs.length := by
  induction bs with
  | nil => rfl
  | cons b rest ih =>
    rw [List.flatten_cons, List.length_append, h b (by simp),
      ih (fun x hx => h x (by simp [hx])), List.length_cons]
    ring

lemma pkcs7Pad_mod (data : List Nat) : (pkcs7Pad data).length % 16 = 0 := by
  simp only [pkcs7Pad, List.length_append, List.length_replicate]
  omega

lemma pkcs7Pad_lt (data : List Nat) (h : ∀ b ∈ data, b < 256) :
    ∀ b ∈ pkcs7Pad data, b < 256 := by
  intro b hb
  unfold pkcs7Pad at hb
  rw [List.mem_append] at hb
  rcases hb with hb | hb
  · exact h b hb
  · have := List.eq_of_mem_replicate hb
    omega

lemma pkcs7_unpad_pad (data : List Nat) : pkcs7Unpad (pkcs7Pad data) = some data := by
  set p := 16 - data.length % 16 with hpdef
  have hp : 1 ≤ p ∧ p ≤ 16 := by omega
  obtain ⟨nq, hq⟩ : ∃ nq, p = nq + 1 := ⟨p - 1, by omega⟩
  have hpad : pkcs7Pad data = data ++ List.replicate p p := by
    rw [pkcs7Pad, ← hpdef]
  have hrev : (data ++ List.replicate p p).reverse
      = p :: (List.replicate nq p ++ data.reverse) := by
    rw [List.reverse_append, List.reverse_replicate]
    nth_rewrite 1 [hq]
    rw [List.replicate_succ, List.cons_append]
  have hlen : (data ++ List.replicate p p).length = data.length + p := by
    simp
  have hsub : (data ++ List.replicate p p).length - p = data.length := by
    omega
  have hdrop : (data ++ List.replicate p p).drop ((data ++ List.replicate p p).length - p)
      = List.replicate p p := by
    rw [hsub]
    exact List.drop_left ..
  have htake : (data ++ List.replicate p p).take ((data ++ List.replicate p p).length - p)
      = data := by
    rw [hsub]
    exact List.take_left ..
  have hall : (List.replicate p p).all (fun b => b = p) = true := by
    rw [List.all_eq_true]
    intro x hx
    simpa using List.eq_of_mem_replicate hx
  rw [hpad]
  simp only [pkcs7Unpad, hrev]
  rw [if_pos ⟨hp.1, hp.2, by omega, by rw [hdrop]; exact hall⟩, htake]

lemma cbcEncBlocks_len (E : List Nat → List Nat)
    (hElen : ∀ x : List Nat, x.length = 16 → (E x).length = 16) :
    ∀ bs prev, prev.length = 16 → (∀ b ∈ bs, b.length = 16) →
    ∀ c ∈ cbcEncBlocks E prev bs, c.length = 16 := by
  intro bs
  induction bs with
  | nil =>
    intro prev hp hb c hc
    simp [cbcEncBlocks] at hc
  | cons b rest ih =>
    intro prev hp hb c hc
    have hx : (xorBytes prev b).length = 16 := by
      rw [xorBytes_length, hp, hb b (by simp)]
      simp
    have hE : (E (xorBytes prev b)).length = 16 := hElen _ hx
    simp only [cbcEncBlocks, List.mem_cons] at hc
    rcases hc with rfl | hc
    · exact hE
    · exact ih (E (xorBytes prev b)) hE (fun x hxm => hb x (by simp [hxm])) c hc

lemma cbcEncBlocks_lt (E : List Nat → List Nat)
    (hElen : ∀ x : List Nat, x.length = 16 → (E x).length = 16)
    (hE256 : ∀ x : List Nat, x.length = 16 → (∀ b ∈ x, b < 256) → ∀ b ∈ E x, b < 256) :
    ∀ bs prev, prev.length = 16 → (∀ v ∈ prev, v < 256) →
    (∀ b ∈ bs, b.length = 16) → (∀ b ∈ bs, ∀ v ∈ b, v < 256) →
    ∀ c ∈ cbcEncBlocks E prev bs, ∀ v ∈ c, v < 256 := by
  intro bs
  induction bs with
  | nil =>
    intro prev hp hp2 hb hb2 c hc
    simp [cbcEncBlocks] at hc
  | cons b rest ih =>
    intro prev hp hp2 hb hb2 c hc
    have hx : (xorBytes prev b).length = 16 := by
      rw [xorBytes_length, hp, hb b (by simp)]
      simp
    have hx2 : ∀ v ∈ xorBytes prev b, v < 256 :=
      xorBytes_lt prev b hp2 (hb2 b (by simp))
    have hE : (E (xorBytes prev b)).length = 16 := hElen _ hx
    have hE2 : ∀ v ∈ E (xorBytes prev b), v < 256 := hE256 _ hx hx2
    simp only [cbcEncBlocks, List.mem_cons] at hc
    rcases hc with rfl | hc
    · exact hE2
    · exact ih (E (xorBytes prev b)) hE hE2 (fun x hxm => hb x (by simp [hxm]))
        (fun x hxm => hb2 x (by simp [hxm])) c hc

lemma cbc_blocks_roundtrip (E D : List Nat → List Nat)
    (hDE : ∀ x : List Nat, x.length = 16 → D (E x) = x)
    (hElen : ∀ x : List Nat, x.length = 16 → (E x).length = 16) :
    ∀ bs prev, prev.length = 16 → (∀ b ∈ bs, b.length = 16) →
    cbcDecBlocks D prev (cbcEncBlocks E prev bs) = bs := by
  intro bs
  induction bs with
  | nil => intro prev hp hb; rfl
  | cons b rest ih =>
    intro prev hp hb
    have hblen : b.length = 16 := hb b (by simp)
    have hx : (xorBytes prev b).length = 16 := by
      rw [xorBytes_length, hp, hblen]
      simp
    simp only [cbcEncBlocks, cbcDecBlocks]
    rw [hDE _ hx, xorBytes_cancel prev b (by rw [hp, hblen])]
    refine congrArg₂ (· :: ·) rfl ?_
    exact ih (E (xorBytes prev b)) (hElen _ hx) (fun x hxm => hb x (by simp [hxm]))

lemma cipher_data_roundtrip (E D : List Nat → List Nat)
    (hDE : ∀ x : List Nat, x.length = 16 → D (E x) = x)
    (hElen : ∀ x : List Nat, x.length = 16 → (E x).length = 16)
    (hE256 : ∀ x : List Nat, x.length = 16 → (∀ b ∈ x, b < 256) → ∀ b ∈ E x, b < 256)
    (iv : List Nat) (hivlen : iv.length = 16) (hiv : ∀ b ∈ iv, b < 256)
    (data : List Nat) (hdata : ∀ b ∈ data, b < 256) :
    decryptData D (encryptData E iv data) = some data := by
  obtain ⟨m, hm⟩ : ∃ m, (pkcs7Pad data).length = 16 * m :=
    ⟨(pkcs7Pad data).length / 16, by have := pkcs7Pad_mod data; omega⟩
  have hblen : ∀ b ∈ chunk16 (pkcs7Pad data), b.length = 16 :=
    chunk16_len16 m (pkcs7Pad data) hm
  have hblt : ∀ b ∈ chunk16 (pkcs7Pad data), ∀ x ∈ b, x < 256 :=
    chunk16_all _ (pkcs7Pad data).length (pkcs7Pad data) (Nat.le_refl _)
      (pkcs7Pad_lt data hdata)
  have henclen : ∀ c ∈ cbcEncBlocks E iv (chunk16 (pkcs7Pad data)), c.length = 16 :=
    cbcEncBlocks_len E hElen _ iv hivlen hblen
  have henclt : ∀ c ∈ cbcEncBlocks E iv (chunk16 (pkcs7Pad data)), ∀ v ∈ c, v < 256 :=
    cbcEncBlocks_lt E hElen hE256 _ iv hivlen hiv hblen hblt
  have hctlen : (cbcEncrypt E iv data).length
      = 16 * (cbcEncBlocks E iv (chunk16 (pkcs7Pad data))).length :=
    flatten_len16 _ henclen
  have hctlt : ∀ v ∈ cbcEncrypt E iv data, v < 256 := by
    intro v hv
    unfold cbcEncrypt at hv
    rw [List.mem_flatten] at hv
    obtain ⟨c, hc, hvc⟩ := hv
    exact henclt c hc v hvc
  have hbuf : ∀ v ∈ iv ++ cbcEncrypt E iv data, v < 256 := by
    intro v hv
    rw [List.mem_append] at hv
    rcases hv with hv | hv
    · exact hiv v hv
    · exact hctlt v hv
  unfold encryptData decryptData
  rw [b64_roundtrip (iv ++ cbcEncrypt E iv data) hbuf]
  have hbuflen : ¬(iv ++ cbcEncrypt E iv data).length < 16 := by
    rw [List.length_append, hivlen]
    omega
  show (if (iv ++ cbcEncrypt E iv data).length < 16 then none
    else cbcDecrypt D ((iv ++ cbcEncrypt E iv data).take 16)
      ((iv ++ cbcEncrypt E iv data).drop 16)) = some data
  rw [if_neg hbuflen]
  have htk : (iv ++ cbcEncrypt E iv data).take 16 = iv := by
    rw [← hivlen]
    exact List.take_left ..
  have hdr : (iv ++ cbcEncrypt E iv data).drop 16 = cbcEncrypt E iv data := by
    rw [← hivlen]
    exact List.drop_left ..
  rw [htk, hdr]
  unfold cbcDecrypt
  rw [if_pos (by omega)]
  unfold cbcEncrypt
  rw [chunk16_flatten _ henclen,
    cbc_blocks_roundtrip E D hDE hElen _ iv hivlen hblen,
    flatten_chunk16 (pkcs7Pad data).length (pkcs7Pad data) (Nat.le_refl _)]
  exact pkcs7_unpad_pad data

/-- Claim C2 (confirmed): writing content `C`, encrypting the file, then
decrypting the result restores exactly `C`.  The AES-256 block permutation
(inside node's `crypto`) appears as the pair `E`/`D`, assumed to be a
length-preserving, byte-valued inverse pair on 16-byte blocks; the encrypted
file holds `base64(IV || ciphertext)` and `decryptFile` splits the first 16
decoded bytes off as the IV, decrypts the rest with the same key, and writes
the plaintext bytes verbatim. -/
theorem encrypt_decrypt_roundtrip (E D : List Nat → List Nat)
    (hDE : ∀ x : List Nat, x.length = 16 → D (E x) = x)
    (hElen : ∀ x : List Nat, x.length = 16 → (E x).length = 16)
    (hE256 : ∀ x : List Nat, x.length = 16 → (∀ b ∈ x, b < 256) → ∀ b ∈ E x, b < 256)
    (iv : List Nat) (hivlen : iv.length = 16) (hiv : ∀ b ∈ iv, b < 256)
    (C : List Nat) (hC : ∀ b ∈ C, b < 256) (fs : FS) (p q r : String) :
    decryptData D (encryptData E iv C) = some C ∧
    encryptData E iv C = b64Encode (iv ++ cbcEncrypt E iv C) ∧
    encryptFileFS E iv (fsWrite fs p (FileData.bytes C)) p q
      = some (fsWrite (fsWrite fs p (FileData.bytes C)) q
          (FileData.text (encryptData E iv C))) ∧
    decryptFileFS D (fsWrite (fsWrite fs p (FileData.bytes C)) q
        (FileData.text (encryptData E iv C))) q r
      = some (fsWrite (fsWrite (fsWrite fs p (FileData.bytes C)) q
          (FileData.text (encryptData E iv C))) r (FileData.bytes C)) ∧
    (fsWrite (fsWrite (fsWrite fs p (FileData.bytes C)) q
        (FileData.text (encryptData E iv C))) r (FileData.bytes C)) r
      = some (FileData.bytes C) := by
  have hrt := cipher_data_roundtrip E D hDE hElen hE256 iv hivlen hiv C hC
  refine ⟨hrt, rfl, ?_, ?_, ?_⟩
  · simp [encryptFileFS, fsWrite, readBytes]
  · simp [decryptFileFS, fsWrite, readText, hrt]
  · simp [fsWrite]

/-- Witness for claim C2: the byte-reversal permutation is its own inverse
on 16-byte blocks, so the round trip holds for it at concrete content. -/
theorem encrypt_decrypt_roundtrip_witness :
    decryptData List.reverse
        (encryptData List.reverse (List.replicate 16 0) [0, 1, 2]) = some [0, 1, 2] ∧
    (fsWrite (fsWrite (fsWrite (fun _ => none) "p" (FileData.bytes [0, 1, 2])) "q"
        (FileData.text (encryptData List.reverse (List.replicate 16 0) [0, 1, 2]))) "r"
        (FileData.bytes [0, 1, 2])) "r"
      = some (FileData.bytes [0, 1, 2]) := by
  have h := encrypt_decrypt_roundtrip List.reverse List.reverse
    (fun x _ => List.reverse_reverse x)
    (fun x hx => by rw [List.length_reverse]; exact hx)
    (fun x _ hx b hb => hx b (List.mem_reverse.mp hb))
    (List.replicate 16 0) (by decide) (by decide)
    [0, 1, 2] (by decide) (fun _ => none) "p" "q" "r"
  exact ⟨h.1, h.2.2.2.2⟩
